import Mathlib

/-!
Verification model of `src/strip.cpp` (LED-Shot-Tray firmware).

The file shallowly embeds the algorithmic core of the strip driver:

* the color primitive `RGB_t` (three `uint8_t` channels) and the hue-wheel
  walk `rgb_apply_fade`;
* the sparse pixel buffer `pxbuf` with `pxbuf_insert`, `pxbuf_exists`,
  `pxbuf_remove`, `pxbuf_remove_at`;
* the projection routines `strip_apply_all`, `strip_apply_substrpbuf`,
  `strip_apply_RGBbuf`, `strip_apply_pxbuf`, `strip_distribute_rgb`,
  `strip_scroll_rgb`;
* the animation state machines `rgb_apply_brightness_fade` and
  `strip_override`.

Machine integers are modelled as `Nat` (or `Int` for the C `int` brightness)
with explicit `% 2^w` reductions wherever the C arithmetic can wrap.
Projection routines return the list of per-pixel colors they transmit
(each entry is sent as three `ws2812_tx_byte` calls in the configured
channel order); `strip_apply_RGBbuf` returns the raw transmission event
stream because the claim about it concerns byte counts and the
begin/end-transmission bracket.  The external peripherals (transmission,
timer, EEPROM) are out of scope; elapsed-time gates appear as a boolean
`elapsed` input to the state machines.
-/

namespace LEDStrip

/-- `RGB_t` from `strip.h`: an array of three 8-bit channel intensities,
indexed by `R = 0`, `G = 1`, `B = 2`.  Channels are `uint8_t`; operations
below apply `% 256` wherever the C arithmetic can wrap. -/
structure RGB_t where
  r : Nat
  g : Nat
  b : Nat
deriving DecidableEq

/-- `off = {0, 0, 0}` from `strip.cpp` (black). -/
def off : RGB_t := ⟨0, 0, 0⟩

/-- Branch structure of `rgb_apply_fade` (strip.cpp:221-277) after the
defensive all-channels-nonzero reset and the `step_size == 0`
normalisation have been applied (see `rgb_apply_fade` below).

`s` is the normalised step (`1 ≤ s ≤ 255`).  The `uint8_t` computation
`tmp = x; tmp -= s` is modelled as `(x + 256 - s) % 256`, and the
wraparound-detection idiom `tmp > x` is kept literally.  The increments
`rgb[G] += s` / `rgb[B] += s` / `rgb[R] += s` are `uint8_t` additions,
modelled as `(x + s) % 256`.  `255 - tmp` cannot underflow because
`tmp ≤ 255`. -/
def rgb_fade_core (rgb : RGB_t) (s : Nat) : RGB_t :=
  if rgb.g < 255 ∧ rgb.b = 0 then
    -- r2g: red falling, green rising
    if (rgb.r + 256 - s) % 256 > rgb.r then
      ⟨0, (rgb.r + 256 - s) % 256, 255 - (rgb.r + 256 - s) % 256⟩
    else
      ⟨(rgb.r + 256 - s) % 256, (rgb.g + s) % 256, rgb.b⟩
  else if rgb.g > 0 then
    -- green falling, blue rising
    if (rgb.g + 256 - s) % 256 > rgb.g then
      ⟨255 - (rgb.g + 256 - s) % 256, 0, (rgb.g + 256 - s) % 256⟩
    else
      ⟨rgb.r, (rgb.g + 256 - s) % 256, (rgb.b + s) % 256⟩
  else
    -- blue falling, red rising
    if (rgb.b + 256 - s) % 256 > rgb.b then
      ⟨(rgb.b + 256 - s) % 256, 255 - (rgb.b + 256 - s) % 256, 0⟩
    else
      ⟨(rgb.r + s) % 256, rgb.g, (rgb.b + 256 - s) % 256⟩

/-- `rgb_apply_fade` (strip.cpp:221-277).  First the defensive reset: if all
three channels are nonzero the color is rewritten to pure red `(255,0,0)`.
Then `step_size == 0` is treated as `1`, and the active channel pair is
stepped by `rgb_fade_core`.  `step_size` is a `uint8_t` parameter; theorems
carry `step_size ≤ 255`. -/
def rgb_apply_fade (rgb : RGB_t) (step_size : Nat) : RGB_t :=
  rgb_fade_core
    (if rgb.r ≠ 0 ∧ rgb.g ≠ 0 ∧ rgb.b ≠ 0 then ⟨255, 0, 0⟩ else rgb)
    (if step_size = 0 then 1 else step_size)

/-- The color that `strip_scroll_rgb` (strip.cpp:670-693) places on the
strip for wheel offset `val`, before brightness scaling: `val %= 765`, then
one of three linear 255-unit segments of the red→green→blue→red wheel.
This is the code's own enumeration of the 765 hue-wheel positions. -/
def strip_scroll_rgb (val : Nat) : RGB_t :=
  if val % 765 < 256 then
    ⟨255 - val % 765, val % 765, 0⟩
  else if val % 765 < 511 then
    ⟨0, 255 - (val % 765 - 255), val % 765 - 255⟩
  else
    ⟨val % 765 - 510, 0, 255 - (val % 765 - 510)⟩

/-- The color reached after `n` calls of `rgb_apply_fade` with step size 1
starting from pure red `(255,0,0)`. -/
def fade1_iter (n : Nat) : RGB_t :=
  (fun c => rgb_apply_fade c 1)^[n] ⟨255, 0, 0⟩

/-- Invariant of the hue-wheel colors reachable by `rgb_apply_fade` from
`(255,0,0)`: the channels sum to exactly 255 and at least one channel is 0. -/
def FadeRGBInv (c : RGB_t) : Prop :=
  c.r + c.g + c.b = 255 ∧ (c.r = 0 ∨ c.g = 0 ∨ c.b = 0)

/-- `pxl` from `strip.h`: a pixel at position `pos` (`uint16_t`) with color
`rgb`. -/
structure pxl where
  pos : Nat
  rgb : RGB_t
deriving DecidableEq

/-- `pxbuf` from `strip.h`: a dynamically sized buffer of `pxl` objects.
`size` is the `uint16_t` element count; `buf` is the heap array, modelled as
the list of its `size` allocated cells.  Every buffer reachable from
`pxbuf_init` satisfies `size = buf.length`; `pxbuf_remove` is the one
operation whose C code can break that correspondence (see its docstring). -/
structure pxbuf where
  size : Nat
  buf : List pxl
deriving DecidableEq

/-- `pxbuf_init` (strip.cpp:315-319): the empty buffer (`buf = NULL`,
`size = 0`). -/
def pxbuf_init : pxbuf := ⟨0, []⟩

/-- The scan loop of `pxbuf_insert` (strip.cpp:340-370) on the array
contents: the first cell with an equal position is overwritten (upsert); at
the first cell with a greater position the new pixel is spliced in (the C
code grows the array and shifts the tail up by one); if the scan runs off
the end the new pixel is appended.  The `[]` base case is also the
`buf->size == 0` fast path of the C code (a fresh one-element array). -/
def pxbuf_insert_list : List pxl → Nat → RGB_t → List pxl
  | [], pos, rgb => [⟨pos, rgb⟩]
  | p :: rest, pos, rgb =>
    if p.pos = pos then ⟨pos, rgb⟩ :: rest
    else if p.pos > pos then ⟨pos, rgb⟩ :: p :: rest
    else p :: pxbuf_insert_list rest pos rgb

/-- The scan loop of `pxbuf_exists` (strip.cpp:373-383): linear scan that
short-circuits to `false` once a stored position exceeds `pos`. -/
def pxbuf_exists_list : List pxl → Nat → Bool
  | [], _ => false
  | p :: rest, pos =>
    if p.pos = pos then true
    else if p.pos > pos then false
    else pxbuf_exists_list rest pos

/-- `pxbuf_insert` (strip.cpp:330-371).  The C code takes the
`buf->size == 0` fast path for an empty buffer; otherwise it scans, and
increments `size` exactly on the two paths that allocate a new cell (shift-in
and append), i.e. exactly when no cell with position `pos` already exists.
`size` is `uint16_t` in C; the model keeps it as `Nat`, idealizing away the
wrap at 2^16 stored pixels exactly as it idealizes the allocator (the
ATtiny's RAM is exhausted long before either bound). -/
def pxbuf_insert (b : pxbuf) (pos : Nat) (rgb : RGB_t) : pxbuf :=
  if b.size = 0 then ⟨1, [⟨pos, rgb⟩]⟩
  else ⟨if pxbuf_exists_list b.buf pos then b.size else b.size + 1,
        pxbuf_insert_list b.buf pos rgb⟩

/-- `pxbuf_exists` (strip.cpp:373-383).  The loop bound `i < buf->size`
equals the array length on every buffer reachable from `pxbuf_init`. -/
def pxbuf_exists (b : pxbuf) (pos : Nat) : Bool :=
  pxbuf_exists_list b.buf pos

/-- `pxbuf_remove` (strip.cpp:393-408).  The C code decrements the
`uint16_t` size first (`buf->size--`).  On the empty buffer this wraps the
size from 0 to 65535, the size-0 reset is skipped, and the shift loop then
walks 65535 cells of the NULL array: the code reads unallocated memory,
modelled as `none` (undefined behavior).  On a nonempty buffer the
decrement is the ordinary `b.size - 1`: if it is 0 the array is freed and
the buffer reset to the empty state (for a one-element buffer this happens
regardless of `index`); otherwise the shift loop
`for (i = index; i < size; i++) buf[i] = buf[i+1]` drops cell `index`
(a no-op leaving the tail cell to be truncated when `index ≥ size`) and
`realloc` truncates the array to `size` cells: on the list this is
`(buf.eraseIdx index).take size`.  Should the decremented size still
exceed the number of allocated cells (impossible on states reachable from
`pxbuf_init`, where `size = buf.length`), the shift loop again reads out
of bounds: `none`. -/
def pxbuf_remove (b : pxbuf) (index : Nat) : Option pxbuf :=
  if b.size = 0 then none
  else if b.size - 1 = 0 then some ⟨0, []⟩
  else if b.size - 1 ≤ b.buf.length then
    some ⟨b.size - 1, (b.buf.eraseIdx index).take (b.size - 1)⟩
  else none

/-- The scan loop of `pxbuf_remove_at` (strip.cpp:421-440): index of the
first cell whose position equals `pos`, short-circuiting to `none` once a
stored position exceeds `pos`. -/
def pxbuf_find_index_list : List pxl → Nat → Option Nat
  | [], _ => none
  | p :: rest, pos =>
    if p.pos = pos then some 0
    else if p.pos > pos then none
    else (pxbuf_find_index_list rest pos).map (· + 1)

/-- `pxbuf_remove_at` (strip.cpp:421-440): find the index assigned to
`pos` and delegate to `pxbuf_remove`; return whether a removal occurred.
When an index is found the buffer is necessarily nonempty, so
`pxbuf_remove` succeeds there and the `getD` fallback is never used on
reachable states. -/
def pxbuf_remove_at (b : pxbuf) (pos : Nat) : Bool × pxbuf :=
  match pxbuf_find_index_list b.buf pos with
  | some i => (true, (pxbuf_remove b i).getD b)
  | none => (false, b)

/-- One externally invocable sparse-buffer mutation: `pxbuf_insert` at a
position with a color, or `pxbuf_remove` at a buffer index. -/
inductive PxOp where
  | insert (pos : Nat) (rgb : RGB_t)
  | remove (index : Nat)
deriving DecidableEq

/-- Apply one operation; `pxbuf_remove` can be undefined behavior (see its
docstring), hence the `Option`. -/
def pxbuf_apply_op (b : pxbuf) : PxOp → Option pxbuf
  | .insert pos rgb => some (pxbuf_insert b pos rgb)
  | .remove index => pxbuf_remove b index

/-- Run a sequence of insert/remove operations starting from the empty
buffer (`pxbuf_init`); `none` once any operation hits undefined behavior. -/
def pxbuf_run (ops : List PxOp) : Option pxbuf :=
  ops.foldl (fun ob op => ob.bind (fun b => pxbuf_apply_op b op)) (some pxbuf_init)

/-- Structural invariant of reachable buffers: the recorded `size` is the
number of allocated cells, and the stored positions are strictly
increasing (strictly sorted, hence duplicate-free). -/
def PxInv (b : pxbuf) : Prop :=
  b.size = b.buf.length ∧ List.Pairwise (fun p q : pxl => p.pos < q.pos) b.buf

/-- `substrp` from `strip.h`: a run of `length` pixels (`uint16_t`) painted
with color `rgb`.  A `substrpbuf` is modelled as a `List substrp`. -/
structure substrp where
  length : Nat
  rgb : RGB_t
deriving DecidableEq

/-- `strip_apply_all` (strip.cpp:451-466), WS2812 path: one
begin-transmission, then for each of the `strip_size` physical pixels the
three channel bytes of `rgb` in the configured wiring order, then one
end-transmission.  Modelled as the list of per-pixel colors transmitted. -/
def strip_apply_all (strip_size : Nat) (rgb : RGB_t) : List RGB_t :=
  List.replicate strip_size rgb

/-- `strip_apply_substrpbuf` (strip.cpp:477-488): for each sub-strip in
order, emit its color `length` times.  Modelled as the list of per-pixel
colors transmitted (three bytes each on the wire). -/
def strip_apply_substrpbuf (buf : List substrp) : List RGB_t :=
  buf.flatMap fun s => List.replicate s.length s.rgb

/-- The segment buffer built by `strip_distribute_rgb` (strip.cpp:516-533)
for a color array `rgb` on a strip of `strip_size` pixels: one sub-strip
per color, each of length `strip_size / size` (integer division), the last
one additionally absorbing `strip_size % size`.  The C function then
projects this buffer with `strip_apply_substrpbuf` and frees it; the model
returns the buffer it builds (the global `strip_size` is passed
explicitly). -/
def strip_distribute_rgb (strip_size : Nat) (rgb : List RGB_t) : List substrp :=
  (List.range rgb.length).map fun i =>
    ⟨strip_size / rgb.length +
       (if i = rgb.length - 1 then strip_size % rgb.length else 0),
     rgb.getD i off⟩

/-- One event on the WS2812 transmission interface: `ws2812_prep_tx`, a
`ws2812_tx_byte`, or `ws2812_end_tx`. -/
inductive TxEvent where
  | prep
  | byte (value : Nat)
  | txEnd
deriving DecidableEq

/-- The three `ws2812_tx_byte` calls for one pixel, in the configured
channel wiring order (the build fixes one of four permutations; the model
uses the `WS2812_COLOR_ORDER == RGB` wiring, the claims being independent
of the permutation chosen). -/
def tx_rgb (c : RGB_t) : List TxEvent :=
  [TxEvent.byte c.r, TxEvent.byte c.g, TxEvent.byte c.b]

/-- `strip_apply_RGBbuf` (strip.cpp:497-506): emit the first `strip_size`
entries of a dense RGB array between one begin- and one end-transmission.
Its loop counter `i` is declared `uint8_t` while `strip_size` is
`uint16_t`: when `strip_size ≥ 256` the exit test `i < strip_size` can
never fail (`i ≤ 255 < 256 ≤ strip_size`, with `i` wrapping 255 → 0), so
the loop never terminates and `ws2812_end_tx` is never reached — modelled
as `none`.  For `strip_size ≤ 255` the loop runs once per pixel
`i = 0 .. strip_size - 1` (the caller guarantees the array is pre-sized;
reads beyond the list default to `off`, matching the absence of bounds
checking). -/
def strip_apply_RGBbuf (strip_size : Nat) (buf : List RGB_t) : Option (List TxEvent) :=
  if strip_size < 256 then
    some ([TxEvent.prep] ++
      ((List.range strip_size).flatMap fun i => tx_rgb (buf.getD i off)) ++
      [TxEvent.txEnd])
  else none

/-- The position walk of `strip_apply_pxbuf` (strip.cpp:793-804): `n`
physical positions remain, the next one is `i`, and `pxs` is the tail of
the sparse buffer not yet consumed by the cursor `px_i`.  At each position,
if the next pending sparse pixel's position matches, emit its color and
advance the cursor; otherwise emit black (three zero bytes).  The C cursor
guard `px_i < buf->size` is list exhaustion, since reachable buffers have
`size = buf.length`. -/
def strip_apply_pxbuf_walk : List pxl → Nat → Nat → List RGB_t
  | _, _, 0 => []
  | [], i, n + 1 => off :: strip_apply_pxbuf_walk [] (i + 1) n
  | p :: rest, i, n + 1 =>
    if p.pos = i then p.rgb :: strip_apply_pxbuf_walk rest (i + 1) n
    else off :: strip_apply_pxbuf_walk (p :: rest) (i + 1) n

/-- `strip_apply_pxbuf` (strip.cpp:781-806): an empty sparse buffer is
projected as `strip_apply_all off`; otherwise the strip is walked position
by position against the sparse cursor. -/
def strip_apply_pxbuf (strip_size : Nat) (b : pxbuf) : List RGB_t :=
  if b.size = 0 then strip_apply_all strip_size off
  else strip_apply_pxbuf_walk b.buf 0 strip_size

/-- Modelled from the spec's wording of **apply_sparse** (§4.3): position
`i` shows the stored color of the pixel assigned to `i` if one exists, and
black otherwise.  Used as the specification against which the cursor walk
of `strip_apply_pxbuf` is verified. -/
def sparse_projection_spec (strip_size : Nat) (pxs : List pxl) : List RGB_t :=
  (List.range strip_size).map fun i =>
    (((pxs.find? fun p => p.pos == i).map pxl.rgb).getD off)

/-- `strip_override` (strip.cpp:873-898) as a step function on its static
cursor `pos`.  The elapsed-time gate `ms_passed() < delay` is the boolean
input `elapsed` (`true` when the delay has passed).  Returns the C return
value, the new cursor, and the colors transmitted this call (`none` when
nothing is transmitted): when the cursor has reached `strip_size` it resets
to 0 and reports completion *before* checking the delay; otherwise an
elapsed call paints pixels `0 .. pos` (that is `pos + 1` copies of `rgb`)
and advances the cursor. -/
def strip_override (strip_size : Nat) (rgb : RGB_t) (elapsed : Bool) (pos : Nat) :
    Bool × Nat × Option (List RGB_t) :=
  if pos = strip_size then (true, 0, none)
  else if elapsed then (false, pos + 1, some (List.replicate (pos + 1) rgb))
  else (false, pos, none)

/-- The cursor of `strip_override` after `k` delay-elapsed calls starting
from cursor 0. -/
def strip_override_cursor (strip_size : Nat) (rgb : RGB_t) (k : Nat) : Nat :=
  (fun p => (strip_override strip_size rgb true p).2.1)^[k] 0

/-- The static state of `rgb_apply_brightness_fade` (strip.cpp:537-566):
the direction flag `inc` and the current `brightness`, a C `int` — 16 bits
wide on the AVR target. -/
structure brightness_fade_state where
  inc : Bool
  brightness : Int
deriving DecidableEq

/-- Reinterpret an integer as the 16-bit two's-complement value the AVR
`int` holds after wrapping arithmetic. -/
def wrap16 (n : Int) : Int :=
  (n + 32768) % 65536 - 32768

/-- The update performed by `rgb_apply_brightness_fade` (strip.cpp:537-566)
once the `start` reset has been applied: in the rising phase
`brightness += step_size` (16-bit wrap), clamping to 255 and flipping the
direction there (`inc = brightness < 255`); in the falling phase
`brightness -= step_size` (16-bit wrap), clamping to 0 and flipping the
direction there (`inc = brightness == 0`).  The C function finally copies
`rgb_in` to `rgb_out`, scales it by the new brightness (floating-point
`rgb_apply_brightness`, not needed by the claims) and returns
`brightness == 0`.  Result: (new state, return value). -/
def brightness_fade_step (step_size : Nat) (s : brightness_fade_state) :
    brightness_fade_state × Bool :=
  if s.inc then
    if wrap16 (s.brightness + step_size) ≥ 255 then
      (⟨false, 255⟩, false)
    else
      (⟨true, wrap16 (s.brightness + step_size)⟩,
       decide (wrap16 (s.brightness + step_size) = 0))
  else
    if wrap16 (s.brightness - step_size) < 0 then
      (⟨true, 0⟩, true)
    else
      (⟨decide (wrap16 (s.brightness - step_size) = 0),
        wrap16 (s.brightness - step_size)⟩,
       decide (wrap16 (s.brightness - step_size) = 0))

/-- `rgb_apply_brightness_fade` (strip.cpp:537-566): `start = true` resets
the static state to ascending-from-zero before stepping. -/
def rgb_apply_brightness_fade (step_size : Nat) (start : Bool)
    (s : brightness_fade_state) : brightness_fade_state × Bool :=
  brightness_fade_step step_size (if start then ⟨true, 0⟩ else s)

/-- States of the brightness triangle wave that arise when every call uses
a step size small enough not to overflow the 16-bit `int`: brightness in
`[0, 255]`, and at most 254 while still rising. -/
def BrightnessFadeInv (s : brightness_fade_state) : Prop :=
  0 ≤ s.brightness ∧ s.brightness ≤ 255 ∧ (s.inc = true → s.brightness ≤ 254)

end LEDStrip

namespace LEDStrip

theorem scroll_zero : strip_scroll_rgb 0 = ⟨255, 0, 0⟩ := by decide

set_option maxRecDepth 4000 in
theorem scroll_step_all : ∀ n < 765,
    rgb_apply_fade (strip_scroll_rgb n) 1 = strip_scroll_rgb (n + 1) := by decide

theorem scroll_inj_on (m n : Nat) (hm : m < 765) (hn : n < 765)
    (h : strip_scroll_rgb m = strip_scroll_rgb n) : m = n := by
  unfold strip_scroll_rgb at h
  rw [Nat.mod_eq_of_lt hm, Nat.mod_eq_of_lt hn] at h
  split_ifs at h <;> rw [RGB_t.mk.injEq] at h <;> omega

theorem fade1_iter_eq_scroll : ∀ n, n ≤ 765 → fade1_iter n = strip_scroll_rgb n := by
  intro n
  induction n with
  | zero => intro _; rw [scroll_zero]; rfl
  | succ k ih =>
    intro h
    rw [fade1_iter, Function.iterate_succ_apply']
    have hk : (fun c => rgb_apply_fade c 1)^[k] ⟨255, 0, 0⟩ = strip_scroll_rgb k :=
      ih (by omega)
    rw [hk]
    exact scroll_step_all k (by omega)

/-- **C2.** Starting from `(255,0,0)`, `rgb_apply_fade` with step size 1 is
periodic with period exactly 765: after 765 calls the color is back to
`(255,0,0)`, and the 765 colors visited (one per call) are exactly the 765
hue-wheel positions enumerated by `strip_scroll_rgb`, each hit exactly once
with none skipped or repeated. -/
theorem rgb_apply_fade_period :
    fade1_iter 765 = ⟨255, 0, 0⟩ ∧
    (List.range 765).map fade1_iter = (List.range 765).map strip_scroll_rgb ∧
    ((List.range 765).map fade1_iter).Nodup := by
  have hmap : (List.range 765).map fade1_iter = (List.range 765).map strip_scroll_rgb :=
    List.map_congr_left fun n hn =>
      fade1_iter_eq_scroll n (le_of_lt (List.mem_range.mp hn))
  refine ⟨?_, hmap, ?_⟩
  · rw [fade1_iter_eq_scroll 765 le_rfl]; decide
  · rw [hmap]
    exact List.Nodup.map_on
      (fun x hx y hy hxy =>
        scroll_inj_on x y (List.mem_range.mp hx) (List.mem_range.mp hy) hxy)
      (List.nodup_range 765)

theorem rgb_apply_fade_preserves_inv (c : RGB_t) (s : Nat) (hs : s ≤ 255)
    (h : FadeRGBInv c) : FadeRGBInv (rgb_apply_fade c s) := by
  obtain ⟨r, g, b⟩ := c
  obtain ⟨hsum, hzero⟩ := h
  simp only [FadeRGBInv] at *
  unfold rgb_apply_fade rgb_fade_core
  split_ifs <;> simp_all <;> omega

/-- **C10.** Every color reachable from `(255,0,0)` by any sequence of
`rgb_apply_fade` calls (each with a `uint8_t` step size) has channels
summing to exactly 255 with at least one channel equal to 0; consequently
the defensive all-channels-nonzero reset branch at the top of
`rgb_apply_fade` is never taken on reachable states. -/
theorem rgb_apply_fade_reachable_invariant (steps : List Nat)
    (hsteps : ∀ s ∈ steps, s ≤ 255) :
    FadeRGBInv (steps.foldl rgb_apply_fade ⟨255, 0, 0⟩) ∧
    ¬((steps.foldl rgb_apply_fade ⟨255, 0, 0⟩).r ≠ 0 ∧
      (steps.foldl rgb_apply_fade ⟨255, 0, 0⟩).g ≠ 0 ∧
      (steps.foldl rgb_apply_fade ⟨255, 0, 0⟩).b ≠ 0) := by
  have main : ∀ (l : List Nat) (c : RGB_t), (∀ s ∈ l, s ≤ 255) → FadeRGBInv c →
      FadeRGBInv (l.foldl rgb_apply_fade c) := by
    intro l
    induction l with
    | nil => intro c _ hc; simpa using hc
    | cons a t ih =>
      intro c hl hc
      exact ih _ (fun s hs => hl s (by simp [hs]))
        (rgb_apply_fade_preserves_inv c a (hl a (by simp)) hc)
  have h1 : FadeRGBInv (steps.foldl rgb_apply_fade ⟨255, 0, 0⟩) :=
    main steps ⟨255, 0, 0⟩ hsteps (by constructor <;> simp)
  refine ⟨h1, ?_⟩
  rcases h1.2 with h | h | h <;> simp [h]

/-- Witness for `rgb_apply_fade_reachable_invariant` at the concrete step
sequence `[3, 200, 0, 255]`. -/
theorem rgb_apply_fade_reachable_invariant_witness :
    (∀ s ∈ [3, 200, 0, 255], s ≤ 255) ∧
    (FadeRGBInv ([3, 200, 0, 255].foldl rgb_apply_fade ⟨255, 0, 0⟩) ∧
     ¬(([3, 200, 0, 255].foldl rgb_apply_fade ⟨255, 0, 0⟩).r ≠ 0 ∧
       ([3, 200, 0, 255].foldl rgb_apply_fade ⟨255, 0, 0⟩).g ≠ 0 ∧
       ([3, 200, 0, 255].foldl rgb_apply_fade ⟨255, 0, 0⟩).b ≠ 0)) :=
  ⟨by decide, rgb_apply_fade_reachable_invariant [3, 200, 0, 255] (by decide)⟩

theorem pxbuf_insert_list_mem {l : List pxl} {pos : Nat} {rgb : RGB_t} {q : pxl}
    (h : q ∈ pxbuf_insert_list l pos rgb) : q.pos = pos ∨ q ∈ l := by
  induction l with
  | nil =>
    simp only [pxbuf_insert_list, List.mem_singleton] at h
    left; rw [h]
  | cons p rest ih =>
    simp only [pxbuf_insert_list] at h
    split_ifs at h with h1 h2
    · rcases List.mem_cons.mp h with hq | hq
      · left; rw [hq]
      · right; exact List.mem_cons_of_mem _ hq
    · rcases List.mem_cons.mp h with hq | hq
      · left; rw [hq]
      · right; exact hq
    · rcases List.mem_cons.mp h with hq | hq
      · right; rw [hq]; exact List.mem_cons_self _ _
      · rcases ih hq with h' | h'
        · left; exact h'
        · right; exact List.mem_cons_of_mem _ h'

theorem pxbuf_insert_list_pairwise {l : List pxl} {pos : Nat} {rgb : RGB_t}
    (h : List.Pairwise (fun p q : pxl => p.pos < q.pos) l) :
    List.Pairwise (fun p q : pxl => p.pos < q.pos) (pxbuf_insert_list l pos rgb) := by
  induction l with
  | nil => simp [pxbuf_insert_list]
  | cons p rest ih =>
    rcases List.pairwise_cons.mp h with ⟨hp, hrest⟩
    simp only [pxbuf_insert_list]
    split_ifs with h1 h2
    · exact List.pairwise_cons.mpr ⟨fun q hq => h1 ▸ hp q hq, hrest⟩
    · refine List.pairwise_cons.mpr ⟨?_, List.pairwise_cons.mpr ⟨hp, hrest⟩⟩
      intro q hq
      rcases List.mem_cons.mp hq with hq' | hq'
      · rw [hq']; exact h2
      · exact lt_trans h2 (hp q hq')
    · refine List.pairwise_cons.mpr ⟨?_, ih hrest⟩
      intro q hq
      rcases pxbuf_insert_list_mem hq with hq' | hq'
      · rw [hq']; omega
      · exact hp q hq'

theorem pxbuf_insert_list_length (l : List pxl) (pos : Nat) (rgb : RGB_t) :
    (pxbuf_insert_list l pos rgb).length =
      if pxbuf_exists_list l pos then l.length else l.length + 1 := by
  induction l with
  | nil => simp [pxbuf_insert_list, pxbuf_exists_list]
  | cons p rest ih =>
    by_cases h1 : p.pos = pos
    · simp [pxbuf_insert_list, pxbuf_exists_list, h1]
    · by_cases h2 : p.pos > pos
      · simp [pxbuf_insert_list, pxbuf_exists_list, h1, h2]
      · by_cases h3 : pxbuf_exists_list rest pos
        · simp [pxbuf_insert_list, pxbuf_exists_list, h1, h2, ih, h3]
        · simp [pxbuf_insert_list, pxbuf_exists_list, h1, h2, ih, h3]

theorem pxbuf_exists_list_insert (l : List pxl) (pos : Nat) (rgb : RGB_t) :
    pxbuf_exists_list (pxbuf_insert_list l pos rgb) pos = true := by
  induction l with
  | nil => simp [pxbuf_insert_list, pxbuf_exists_list]
  | cons p rest ih =>
    simp only [pxbuf_insert_list]
    split_ifs with h1 h2
    · simp [pxbuf_exists_list]
    · simp [pxbuf_exists_list]
    · simp only [pxbuf_exists_list]
      rw [if_neg h1, if_neg h2]
      exact ih

theorem pxbuf_insert_list_collapse (l : List pxl) (pos : Nat) (c c2 : RGB_t) :
    pxbuf_insert_list (pxbuf_insert_list l pos c) pos c2 =
      pxbuf_insert_list l pos c2 := by
  induction l with
  | nil => simp [pxbuf_insert_list]
  | cons p rest ih =>
    by_cases h1 : p.pos = pos
    · simp [pxbuf_insert_list, h1]
    · by_cases h2 : p.pos > pos
      · simp [pxbuf_insert_list, h1, h2]
      · simp [pxbuf_insert_list, h1, h2, ih]

theorem pxbuf_insert_list_find (l : List pxl) (pos : Nat) (c : RGB_t) :
    (pxbuf_insert_list l pos c).find? (fun p => p.pos == pos) = some ⟨pos, c⟩ := by
  induction l with
  | nil => simp [pxbuf_insert_list, List.find?]
  | cons p rest ih =>
    by_cases h1 : p.pos = pos
    · simp [pxbuf_insert_list, h1, List.find?]
    · by_cases h2 : p.pos > pos
      · simp [pxbuf_insert_list, h1, h2, List.find?]
      · simp [pxbuf_insert_list, h1, h2, List.find?, ih]

theorem pxbuf_insert_preserves_inv (b : pxbuf) (pos : Nat) (rgb : RGB_t)
    (h : PxInv b) : PxInv (pxbuf_insert b pos rgb) := by
  obtain ⟨hwf, hsort⟩ := h
  unfold pxbuf_insert
  split_ifs with h0 h1
  · exact ⟨by simp, by simp⟩
  · refine ⟨?_, pxbuf_insert_list_pairwise hsort⟩
    show b.size = (pxbuf_insert_list b.buf pos rgb).length
    rw [pxbuf_insert_list_length, if_pos h1]
    omega
  · refine ⟨?_, pxbuf_insert_list_pairwise hsort⟩
    show b.size + 1 = (pxbuf_insert_list b.buf pos rgb).length
    rw [pxbuf_insert_list_length, if_neg h1]
    omega

theorem pxbuf_remove_preserves_inv (b : pxbuf) (index : Nat) (b' : pxbuf)
    (h : PxInv b) (hr : pxbuf_remove b index = some b') : PxInv b' := by
  obtain ⟨hwf, hsort⟩ := h
  unfold pxbuf_remove at hr
  split_ifs at hr with h0 h1 h2
  · rw [Option.some.injEq] at hr
    rw [← hr]
    exact ⟨rfl, List.Pairwise.nil⟩
  · rw [Option.some.injEq] at hr
    rw [← hr]
    have hsub : List.Sublist ((b.buf.eraseIdx index).take (b.size - 1)) b.buf :=
      List.Sublist.trans (List.take_sublist ..) (List.eraseIdx_sublist ..)
    have hpw := List.Pairwise.sublist hsub hsort
    have hlen : b.size - 1 = ((b.buf.eraseIdx index).take (b.size - 1)).length := by
      rw [List.length_take, List.length_eraseIdx]
      split_ifs <;> omega
    exact ⟨hlen, hpw⟩

/-- **C1.** For every sequence of `pxbuf_insert`/`pxbuf_remove` operations
applied to a buffer that starts empty (`pxbuf_init`), whenever the run is
defined its resulting buffer is strictly sorted by ascending pixel position
(hence has no duplicate positions).  Since every prefix of a sequence is
itself a sequence, this holds after every single operation. -/
theorem pxbuf_run_sorted (ops : List PxOp) (b : pxbuf)
    (h : pxbuf_run ops = some b) :
    List.Pairwise (fun p q : pxl => p.pos < q.pos) b.buf := by
  have main : ∀ (l : List PxOp) (ob : Option pxbuf),
      (∀ c, ob = some c → PxInv c) → ∀ b',
      l.foldl (fun ob op => ob.bind (fun x => pxbuf_apply_op x op)) ob = some b' →
      PxInv b' := by
    intro l
    induction l with
    | nil =>
      intro ob hob b' hb'
      exact hob b' (by simpa using hb')
    | cons op t ih =>
      intro ob hob b' hb'
      rw [List.foldl_cons] at hb'
      refine ih _ ?_ b' hb'
      intro c hc
      rcases ob with _ | x
      · simp at hc
      · rw [Option.some_bind] at hc
        have hx := hob x rfl
        cases op with
        | insert pos rgb =>
          rw [pxbuf_apply_op, Option.some.injEq] at hc
          rw [← hc]
          exact pxbuf_insert_preserves_inv x pos rgb hx
        | remove i =>
          exact pxbuf_remove_preserves_inv x i c hx hc
  unfold pxbuf_run at h
  exact (main ops (some pxbuf_init)
    (fun c hc => by
      rw [Option.some.injEq] at hc
      rw [← hc]
      exact ⟨rfl, List.Pairwise.nil⟩) b h).2

set_option maxRecDepth 8000 in
/-- Witness for `pxbuf_run_sorted`: a concrete run with three inserts (out
of order) and one remove-by-index. -/
theorem pxbuf_run_sorted_witness :
    pxbuf_run [PxOp.insert 7 ⟨1, 2, 3⟩, PxOp.insert 2 ⟨4, 5, 6⟩,
               PxOp.insert 9 ⟨7, 8, 9⟩, PxOp.remove 1] =
      some ⟨2, [⟨2, ⟨4, 5, 6⟩⟩, ⟨9, ⟨7, 8, 9⟩⟩]⟩ ∧
    List.Pairwise (fun p q : pxl => p.pos < q.pos)
      (pxbuf.mk 2 [⟨2, ⟨4, 5, 6⟩⟩, ⟨9, ⟨7, 8, 9⟩⟩]).buf :=
  ⟨by decide,
   pxbuf_run_sorted
     [PxOp.insert 7 ⟨1, 2, 3⟩, PxOp.insert 2 ⟨4, 5, 6⟩,
      PxOp.insert 9 ⟨7, 8, 9⟩, PxOp.remove 1]
     ⟨2, [⟨2, ⟨4, 5, 6⟩⟩, ⟨9, ⟨7, 8, 9⟩⟩]⟩ (by decide)⟩

/-- **C5 counterexample.** `pxbuf_remove` on the empty buffer is *not* a
safe no-op: `buf->size--` wraps the `uint16_t` size from 0 to 65535, the
size-0 reset is skipped, and the shift loop dereferences the NULL array
(undefined behavior, modelled as `none`) — it does not leave the buffer
empty and unchanged. -/
theorem pxbuf_remove_empty_not_noop :
    pxbuf_remove pxbuf_init 0 ≠ some pxbuf_init := by decide

/-- **C5 (amended).** Removing *by position* from an empty Sparse Pixel
Buffer is a safe no-op: `pxbuf_remove_at` on the empty buffer returns
`false` and leaves the buffer empty and unchanged (its scan loop runs zero
times, so it never calls `pxbuf_remove`).  Direct `pxbuf_remove` on the
empty buffer, however, wraps the `uint16_t` size to 65535 and reads
unallocated memory (undefined behavior), for every index. -/
theorem pxbuf_remove_at_empty_safe (pos index : Nat) :
    pxbuf_remove_at pxbuf_init pos = (false, pxbuf_init) ∧
    pxbuf_remove pxbuf_init index = none :=
  ⟨rfl, rfl⟩

theorem pxbuf_insert_size_ne_zero (b : pxbuf) (pos : Nat) (rgb : RGB_t) :
    (pxbuf_insert b pos rgb).size ≠ 0 := by
  unfold pxbuf_insert
  split_ifs <;> simp_all

/-- **C7.** For every buffer state, position and colors `c`, `c2`: after
`pxbuf_insert pos c`, `pxbuf_exists pos` returns true; a second
`pxbuf_insert pos c2` is an upsert — it yields exactly the buffer that a
single `pxbuf_insert pos c2` would have produced, so the stored color at
`pos` becomes `c2` (witnessed by `find?`) and the buffer size is unchanged
by the second insert. -/
theorem pxbuf_insert_of_size_ne_zero (b : pxbuf) (pos : Nat) (rgb : RGB_t)
    (h0 : b.size ≠ 0) :
    pxbuf_insert b pos rgb =
      ⟨if pxbuf_exists_list b.buf pos then b.size else b.size + 1,
       pxbuf_insert_list b.buf pos rgb⟩ := by
  unfold pxbuf_insert
  rw [if_neg h0]

theorem pxbuf_insert_size_indep (b : pxbuf) (pos : Nat) (c c2 : RGB_t) :
    (pxbuf_insert b pos c).size = (pxbuf_insert b pos c2).size := by
  unfold pxbuf_insert
  split_ifs <;> rfl

theorem pxbuf_insert_collapse (b : pxbuf) (pos : Nat) (c c2 : RGB_t) :
    pxbuf_insert (pxbuf_insert b pos c) pos c2 = pxbuf_insert b pos c2 := by
  by_cases h0 : b.size = 0
  · simp [pxbuf_insert, h0, pxbuf_exists_list, pxbuf_insert_list]
  · have h1 : (pxbuf_insert b pos c).size ≠ 0 := pxbuf_insert_size_ne_zero b pos c
    rw [pxbuf_insert_of_size_ne_zero _ pos c2 h1,
        pxbuf_insert_of_size_ne_zero b pos c h0,
        pxbuf_insert_of_size_ne_zero b pos c2 h0]
    rw [pxbuf.mk.injEq]
    constructor
    · rw [show (pxbuf.mk (if pxbuf_exists_list b.buf pos then b.size else b.size + 1)
          (pxbuf_insert_list b.buf pos c)).buf = pxbuf_insert_list b.buf pos c from rfl]
      rw [pxbuf_exists_list_insert, if_pos rfl]
    · rw [show (pxbuf.mk (if pxbuf_exists_list b.buf pos then b.size else b.size + 1)
          (pxbuf_insert_list b.buf pos c)).buf = pxbuf_insert_list b.buf pos c from rfl]
      exact pxbuf_insert_list_collapse b.buf pos c c2

theorem pxbuf_insert_buf_eq (b : pxbuf) (pos : Nat) (c : RGB_t) :
    (pxbuf_insert b pos c).buf =
      if b.size = 0 then [⟨pos, c⟩] else pxbuf_insert_list b.buf pos c := by
  unfold pxbuf_insert
  split_ifs <;> rfl

/-- **C7.** For every buffer state, position and colors `c`, `c2`: after
`pxbuf_insert pos c`, `pxbuf_exists pos` returns true; a second
`pxbuf_insert pos c2` is an upsert — it yields exactly the buffer that a
single `pxbuf_insert pos c2` would have produced, so the stored color at
`pos` becomes `c2` (witnessed by `find?`) and the buffer size is unchanged
by the second insert. -/
theorem pxbuf_upsert_spec (b : pxbuf) (pos : Nat) (c c2 : RGB_t) :
    pxbuf_exists (pxbuf_insert b pos c) pos = true ∧
    pxbuf_insert (pxbuf_insert b pos c) pos c2 = pxbuf_insert b pos c2 ∧
    (pxbuf_insert (pxbuf_insert b pos c) pos c2).size =
      (pxbuf_insert b pos c).size ∧
    (pxbuf_insert (pxbuf_insert b pos c) pos c2).buf.find?
      (fun p => p.pos == pos) = some ⟨pos, c2⟩ := by
  refine ⟨?_, pxbuf_insert_collapse b pos c c2, ?_, ?_⟩
  · unfold pxbuf_exists
    rw [pxbuf_insert_buf_eq]
    split_ifs
    · simp [pxbuf_exists_list]
    · exact pxbuf_exists_list_insert b.buf pos c
  · rw [pxbuf_insert_collapse b pos c c2]
    exact pxbuf_insert_size_indep b pos c2 c
  · rw [pxbuf_insert_collapse b pos c c2, pxbuf_insert_buf_eq]
    split_ifs
    · simp [List.find?]
    · exact pxbuf_insert_list_find b.buf pos c2

theorem map_getD_range (l : List RGB_t) (d : RGB_t) :
    (List.range l.length).map (fun i => l.getD i d) = l := by
  apply List.ext_getElem
  · simp
  · intro i h1 h2
    simp only [List.getElem_map, List.getElem_range]
    exact List.getD_eq_getElem l d h2

/-- **C3.** `strip_distribute_rgb` with a nonempty color array of size `N`
and strip length `L` builds a segment buffer whose first `N - 1` segments
have length `L / N` and whose last segment has length `L / N + L % N`, with
the input colors in order; the segment lengths sum to `L` exactly.  In
particular for `L = 10` and colors `[red, green, blue]` the buffer is
`[(3, red), (3, green), (4, blue)]` and projecting it paints exactly 10
pixels. -/
theorem strip_distribute_rgb_spec (L : Nat) (rgb : List RGB_t) (h : rgb ≠ []) :
    (strip_distribute_rgb L rgb).map substrp.length =
      List.replicate (rgb.length - 1) (L / rgb.length) ++
        [L / rgb.length + L % rgb.length] ∧
    (strip_distribute_rgb L rgb).map substrp.rgb = rgb ∧
    ((strip_distribute_rgb L rgb).map substrp.length).sum = L ∧
    strip_distribute_rgb 10 [⟨255, 0, 0⟩, ⟨0, 255, 0⟩, ⟨0, 0, 255⟩] =
      [⟨3, ⟨255, 0, 0⟩⟩, ⟨3, ⟨0, 255, 0⟩⟩, ⟨4, ⟨0, 0, 255⟩⟩] ∧
    (strip_apply_substrpbuf
      (strip_distribute_rgb 10 [⟨255, 0, 0⟩, ⟨0, 255, 0⟩, ⟨0, 0, 255⟩])).length = 10 := by
  obtain ⟨m, hm⟩ : ∃ m, rgb.length = m + 1 := by
    cases rgb with
    | nil => exact absurd rfl h
    | cons a t => exact ⟨t.length, rfl⟩
  have hlen : (strip_distribute_rgb L rgb).map substrp.length =
      List.replicate (rgb.length - 1) (L / rgb.length) ++
        [L / rgb.length + L % rgb.length] := by
    unfold strip_distribute_rgb
    rw [List.map_map]
    rw [hm, List.range_succ, List.map_append]
    have hinit : (List.range m).map
        ((fun s : substrp => s.length) ∘ fun i =>
          substrp.mk (L / (m + 1) + if i = m + 1 - 1 then L % (m + 1) else 0)
            (rgb.getD i off)) =
        (List.range m).map (fun _ => L / (m + 1)) := by
      apply List.map_congr_left
      intro i hi
      rw [List.mem_range] at hi
      show L / (m + 1) + (if i = m + 1 - 1 then L % (m + 1) else 0) = L / (m + 1)
      rw [if_neg (by omega)]
      omega
    rw [hinit, List.map_const', List.length_range]
    show List.replicate m (L / (m + 1)) ++
        [L / (m + 1) + if m = m + 1 - 1 then L % (m + 1) else 0] = _
    rw [if_pos (by omega : m = m + 1 - 1), Nat.add_sub_cancel]
  refine ⟨hlen, ?_, ?_, by decide, by decide⟩
  · unfold strip_distribute_rgb
    rw [List.map_map]
    have : ((fun s : substrp => s.rgb) ∘ fun i =>
        substrp.mk (L / rgb.length + if i = rgb.length - 1 then L % rgb.length else 0)
          (rgb.getD i off)) = fun i => rgb.getD i off := rfl
    rw [this]
    exact map_getD_range rgb off
  · rw [hlen, hm, List.sum_append, List.sum_replicate, smul_eq_mul,
        Nat.add_sub_cancel]
    simp only [List.sum_cons, List.sum_nil, add_zero]
    have hdm := Nat.div_add_mod L (m + 1)
    rw [Nat.succ_mul] at hdm
    omega

/-- Witness for `strip_distribute_rgb_spec` at `L = 10` and the three
primary colors. -/
theorem strip_distribute_rgb_spec_witness :
    ([⟨255, 0, 0⟩, ⟨0, 255, 0⟩, ⟨0, 0, 255⟩] : List RGB_t) ≠ [] ∧
    strip_distribute_rgb 10 [⟨255, 0, 0⟩, ⟨0, 255, 0⟩, ⟨0, 0, 255⟩] =
      [⟨3, ⟨255, 0, 0⟩⟩, ⟨3, ⟨0, 255, 0⟩⟩, ⟨4, ⟨0, 0, 255⟩⟩] :=
  ⟨by decide,
   (strip_distribute_rgb_spec 10 [⟨255, 0, 0⟩, ⟨0, 255, 0⟩, ⟨0, 0, 255⟩]
      (by decide)).2.2.2.1⟩

/-- **C4.** `strip_apply_RGBbuf` evaluated against the claim that it
terminates for *every* `uint16_t` strip size: it does not.  Its loop
counter is `uint8_t`, so at `strip_size = 256` (and any larger value) the
exit test `i < strip_size` can never fail and the transmission never ends
(`none`).  Only for `strip_size ≤ 255` does it emit exactly `strip_size`
pixel entries — three bytes per pixel — between one begin-transmission and
one end-transmission. -/
theorem strip_apply_RGBbuf_eval :
    strip_apply_RGBbuf 256 [] = none ∧
    (∀ strip_size : Nat, 256 ≤ strip_size →
      ∀ buf : List RGB_t, strip_apply_RGBbuf strip_size buf = none) ∧
    (∀ strip_size : Nat, strip_size < 256 → ∀ buf : List RGB_t,
      ∃ pixels : List TxEvent,
        strip_apply_RGBbuf strip_size buf =
          some ([TxEvent.prep] ++ pixels ++ [TxEvent.txEnd]) ∧
        pixels.length = 3 * strip_size) := by
  refine ⟨by decide, ?_, ?_⟩
  · intro strip_size hs buf
    unfold strip_apply_RGBbuf
    rw [if_neg (by omega)]
  · intro strip_size hs buf
    refine ⟨(List.range strip_size).flatMap fun i => tx_rgb (buf.getD i off), ?_, ?_⟩
    · unfold strip_apply_RGBbuf
      rw [if_pos hs]
    · rw [List.length_flatMap]
      have hconst : (List.range strip_size).map
          (List.length ∘ fun i => tx_rgb (buf.getD i off)) =
          (List.range strip_size).map (fun _ => 3) :=
        List.map_congr_left fun i _ => rfl
      rw [hconst, List.map_const', List.length_range, List.sum_replicate,
          smul_eq_mul, Nat.mul_comm]

/-- Witness for `strip_apply_RGBbuf_eval` at strip sizes 300 (hangs) and
10 (emits 30 bytes). -/
theorem strip_apply_RGBbuf_eval_witness :
    (256 ≤ 300 ∧ strip_apply_RGBbuf 300 [] = none) ∧
    (10 < 256 ∧ ∃ pixels : List TxEvent,
      strip_apply_RGBbuf 10 [] =
        some ([TxEvent.prep] ++ pixels ++ [TxEvent.txEnd]) ∧
      pixels.length = 3 * 10) :=
  ⟨⟨by omega, strip_apply_RGBbuf_eval.2.1 300 (by omega) []⟩,
   ⟨by omega, strip_apply_RGBbuf_eval.2.2 10 (by omega) []⟩⟩

/-- **C6.** `strip_override` over a strip of size `L ≥ 1`, starting with
its cursor at 0: each of the first `L` delay-elapsed ticks returns `false`
and paints pixels `0 .. cursor` (the cursor-th tick transmits `cursor + 1`
copies of the color), advancing the cursor; after those `L` ticks the
cursor has reached `L`, and the next call — delay-gated or not — returns
`true` and resets the cursor to 0.  Calls whose delay has not elapsed (and
whose cursor is not at `L`) change nothing and return `false`. -/
theorem strip_override_spec (L : Nat) (hL : 1 ≤ L) (rgb : RGB_t) :
    (∀ k, k ≤ L → strip_override_cursor L rgb k = k) ∧
    (∀ p, p < L → strip_override L rgb true p =
      (false, p + 1, some (List.replicate (p + 1) rgb))) ∧
    (∀ p, p ≠ L → strip_override L rgb false p = (false, p, none)) ∧
    (∀ e, strip_override L rgb e L = (true, 0, none)) := by
  have hstep : ∀ p, p < L → strip_override L rgb true p =
      (false, p + 1, some (List.replicate (p + 1) rgb)) := by
    intro p hp
    unfold strip_override
    rw [if_neg (by omega), if_pos rfl]
  refine ⟨?_, hstep, ?_, ?_⟩
  · intro k
    induction k with
    | zero => intro _; rfl
    | succ j ih =>
      intro hk
      have hj := ih (by omega)
      rw [strip_override_cursor] at hj ⊢
      rw [Function.iterate_succ_apply', hj, hstep j (by omega)]
  · intro p hp
    unfold strip_override
    rw [if_neg hp]
    rfl
  · intro e
    unfold strip_override
    rw [if_pos rfl]

/-- Witness for `strip_override_spec` on a strip of 3 pixels. -/
theorem strip_override_spec_witness :
    1 ≤ 3 ∧
    strip_override_cursor 3 ⟨9, 9, 9⟩ 2 = 2 ∧
    strip_override 3 ⟨9, 9, 9⟩ true 1 =
      (false, 2, some (List.replicate 2 ⟨9, 9, 9⟩)) ∧
    strip_override 3 ⟨9, 9, 9⟩ false 1 = (false, 1, none) ∧
    strip_override 3 ⟨9, 9, 9⟩ true 3 = (true, 0, none) :=
  ⟨by omega,
   (strip_override_spec 3 (by omega) ⟨9, 9, 9⟩).1 2 (by omega),
   (strip_override_spec 3 (by omega) ⟨9, 9, 9⟩).2.1 1 (by omega),
   (strip_override_spec 3 (by omega) ⟨9, 9, 9⟩).2.2.1 1 (by omega),
   (strip_override_spec 3 (by omega) ⟨9, 9, 9⟩).2.2.2 true⟩

theorem strip_apply_pxbuf_walk_eq (n : Nat) : ∀ (pxs : List pxl) (i : Nat),
    List.Pairwise (fun p q : pxl => p.pos < q.pos) pxs →
    (∀ p ∈ pxs, i ≤ p.pos) →
    strip_apply_pxbuf_walk pxs i n =
      (List.range' i n).map fun j =>
        (((pxs.find? fun p => p.pos == j).map pxl.rgb).getD off) := by
  induction n with
  | zero => intro pxs i _ _; cases pxs <;> rfl
  | succ m ih =>
    intro pxs i hsort hge
    rw [List.range'_succ, List.map_cons]
    cases pxs with
    | nil =>
      rw [strip_apply_pxbuf_walk, ih [] (i + 1) List.Pairwise.nil (by simp)]
      simp [List.find?_nil]
    | cons p rest =>
      rcases List.pairwise_cons.mp hsort with ⟨hp, hrest⟩
      by_cases hpi : p.pos = i
      · rw [strip_apply_pxbuf_walk, if_pos hpi]
        have hhead : (((p :: rest).find? fun q => q.pos == i).map pxl.rgb).getD off
            = p.rgb := by
          rw [List.find?_cons_of_pos _ (by simp [hpi])]
          rfl
        rw [hhead]
        rw [ih rest (i + 1) hrest (fun q hq => by have := hp q hq; omega)]
        congr 1
        apply List.map_congr_left
        intro j hj
        rw [List.mem_range'_1] at hj
        rw [List.find?_cons_of_neg _ (by simp; omega)]
      · have hgt : i < p.pos := lt_of_le_of_ne (hge p (List.mem_cons_self p rest))
          (fun he => hpi he.symm)
        rw [strip_apply_pxbuf_walk, if_neg hpi]
        have hhead : (((p :: rest).find? fun q => q.pos == i).map pxl.rgb).getD off
            = off := by
          rw [List.find?_eq_none.mpr]
          · rfl
          · intro q hq
            rcases List.mem_cons.mp hq with hq' | hq'
            · simp [hq']; omega
            · have := hp q hq'
              simp
              omega
        rw [hhead]
        rw [ih (p :: rest) (i + 1) hsort ?_]
        intro q hq
        rcases List.mem_cons.mp hq with hq' | hq'
        · rw [hq']; omega
        · have := hp q hq'
          omega

/-- **C8.** For every strip size and every reachable Sparse Pixel Buffer
(`size` equal to the cell count, positions strictly sorted),
`strip_apply_pxbuf` emits, for each physical position `0 .. strip_size-1`
in order, the stored pixel's color (its three bytes) when the next pending
sparse pixel's position equals that position, and black (three zero bytes)
otherwise — that is, exactly the position-lookup projection
`sparse_projection_spec`.  When the buffer is empty it emits black at
every position, which is precisely `strip_apply_all` with `off`. -/
theorem strip_apply_pxbuf_spec (L : Nat) (b : pxbuf)
    (hwf : b.size = b.buf.length)
    (hsort : List.Pairwise (fun p q : pxl => p.pos < q.pos) b.buf) :
    strip_apply_pxbuf L b = sparse_projection_spec L b.buf ∧
    strip_apply_pxbuf L pxbuf_init = strip_apply_all L off := by
  constructor
  · unfold strip_apply_pxbuf
    split_ifs with h0
    · have hb : b.buf = [] := List.length_eq_zero.mp (by omega)
      rw [hb]
      unfold sparse_projection_spec strip_apply_all
      simp only [List.find?_nil, Option.map_none', Option.getD_none]
      rw [List.map_const', List.length_range]
    · unfold sparse_projection_spec
      rw [List.range_eq_range']
      exact strip_apply_pxbuf_walk_eq L b.buf 0 hsort (fun p _ => Nat.zero_le _)
  · rfl

/-- Witness for `strip_apply_pxbuf_spec`: a 5-pixel strip with pixels
stored at positions 1 and 3. -/
theorem strip_apply_pxbuf_spec_witness :
    ((pxbuf.mk 2 [⟨1, ⟨5, 6, 7⟩⟩, ⟨3, ⟨8, 9, 10⟩⟩]).size =
      (pxbuf.mk 2 [⟨1, ⟨5, 6, 7⟩⟩, ⟨3, ⟨8, 9, 10⟩⟩]).buf.length) ∧
    List.Pairwise (fun p q : pxl => p.pos < q.pos)
      (pxbuf.mk 2 [⟨1, ⟨5, 6, 7⟩⟩, ⟨3, ⟨8, 9, 10⟩⟩]).buf ∧
    (strip_apply_pxbuf 5 ⟨2, [⟨1, ⟨5, 6, 7⟩⟩, ⟨3, ⟨8, 9, 10⟩⟩]⟩ =
      sparse_projection_spec 5 [⟨1, ⟨5, 6, 7⟩⟩, ⟨3, ⟨8, 9, 10⟩⟩] ∧
     strip_apply_pxbuf 5 pxbuf_init = strip_apply_all 5 off) :=
  ⟨by decide, by decide,
   strip_apply_pxbuf_spec 5 ⟨2, [⟨1, ⟨5, 6, 7⟩⟩, ⟨3, ⟨8, 9, 10⟩⟩]⟩
     (by decide) (by decide)⟩

/-- **C9 counterexample.** The brightness is a 16-bit AVR `int` while
`step_size` is a `uint16_t`: the very first call of a sequence
(`start = true`, so the state is reset to rising-from-zero) with
`step_size = 40000` wraps `0 + 40000` to `-25536`, driving the brightness
below 0 — the internal brightness does not follow a triangle wave over
`[0, 255]` for every step size. -/
theorem rgb_apply_brightness_fade_large_step :
    (rgb_apply_brightness_fade 40000 true ⟨true, 0⟩).1.brightness = -25536 ∧
    (rgb_apply_brightness_fade 40000 true ⟨true, 0⟩).1.brightness < 0 := by decide

theorem wrap16_eq_self (x : Int) (h1 : -32768 ≤ x) (h2 : x ≤ 32767) :
    wrap16 x = x := by
  unfold wrap16
  omega

/-- **C9 (amended).** For every step size that cannot overflow the 16-bit
`int` brightness (`step_size ≤ 32513`; every in-repo caller passes a
`uint8_t`, hence at most 255) and every state of the triangle wave, one
call of `rgb_apply_brightness_fade` keeps the brightness inside `[0, 255]`,
returns `true` exactly when the updated brightness is 0 (one full up-down
cycle completed), and flips the direction exactly at the 0 and 255
boundaries: rising it adds the step, clamping at 255 and turning downward
there; falling it subtracts the step, clamping at 0 and turning upward
there.  `start = true` restarts the wave from rising-at-zero regardless of
the stored state. -/
theorem brightness_fade_step_false (step : Nat) (b : Int) :
    brightness_fade_step step ⟨false, b⟩ =
      if wrap16 (b - step) < 0 then (⟨true, 0⟩, true)
      else (⟨decide (wrap16 (b - step) = 0), wrap16 (b - step)⟩,
            decide (wrap16 (b - step) = 0)) := rfl

theorem brightness_fade_step_true (step : Nat) (b : Int) :
    brightness_fade_step step ⟨true, b⟩ =
      if wrap16 (b + step) ≥ 255 then (⟨false, 255⟩, false)
      else (⟨true, wrap16 (b + step)⟩, decide (wrap16 (b + step) = 0)) := rfl

theorem rgb_apply_brightness_fade_spec (step : Nat) (hstep : step ≤ 32513)
    (s : brightness_fade_state) (hs : BrightnessFadeInv s) :
    BrightnessFadeInv (brightness_fade_step step s).1 ∧
    ((brightness_fade_step step s).2 = true ↔
      (brightness_fade_step step s).1.brightness = 0) ∧
    (s.inc = true → s.brightness + step ≤ 254 →
      (brightness_fade_step step s).1 = ⟨true, s.brightness + step⟩) ∧
    (s.inc = true → 255 ≤ s.brightness + step →
      (brightness_fade_step step s).1 = ⟨false, 255⟩) ∧
    (s.inc = false → 0 < s.brightness - step →
      (brightness_fade_step step s).1 = ⟨false, s.brightness - step⟩) ∧
    (s.inc = false → s.brightness - step ≤ 0 →
      (brightness_fade_step step s).1 = ⟨true, 0⟩ ∧
      (brightness_fade_step step s).2 = true) ∧
    (∀ s2 : brightness_fade_state,
      rgb_apply_brightness_fade step true s2 = brightness_fade_step step ⟨true, 0⟩) := by
  obtain ⟨inc, b⟩ := s
  obtain ⟨h1, h2, h3⟩ := hs
  simp only at h1 h2 h3
  cases inc with
  | false =>
    have hw : wrap16 (b - step) = b - step :=
      wrap16_eq_self _ (by omega) (by omega)
    rw [brightness_fade_step_false, hw]
    split_ifs with hneg
    · refine ⟨⟨by norm_num, by norm_num, fun _ => by norm_num⟩, by simp, ?_, ?_,
        ?_, fun _ _ => ⟨rfl, rfl⟩, fun s2 => rfl⟩
      · intro hf; simp at hf
      · intro hf; simp at hf
      · intro _ hpos
        simp only at hpos
        omega
    · refine ⟨⟨by simp only; omega, by simp only; omega, ?_⟩, by simp, ?_, ?_,
        ?_, ?_, fun s2 => rfl⟩
      · simp only [decide_eq_true_eq]
        omega
      · intro hf; simp at hf
      · intro hf; simp at hf
      · intro _ hpos
        simp only at hpos
        rw [brightness_fade_state.mk.injEq]
        refine ⟨by simp only [decide_eq_false_iff_not]; omega, rfl⟩
      · intro _ hle
        simp only at hle
        refine ⟨?_, by simp only [decide_eq_true_eq]; omega⟩
        rw [brightness_fade_state.mk.injEq]
        refine ⟨by simp only [decide_eq_true_eq]; omega, by omega⟩
  | true =>
    have h4 : b ≤ 254 := h3 rfl
    have hw : wrap16 (b + step) = b + step :=
      wrap16_eq_self _ (by omega) (by omega)
    rw [brightness_fade_step_true, hw]
    split_ifs with hclamp
    · refine ⟨⟨by norm_num, by norm_num, fun hf => by simp at hf⟩, by simp, ?_,
        fun _ _ => rfl, ?_, ?_, fun s2 => rfl⟩
      · intro _ hle
        simp only at hle
        omega
      · intro hf; simp at hf
      · intro hf; simp at hf
    · refine ⟨⟨by simp only; omega, by simp only; omega, fun _ => by simp only; omega⟩,
        by simp, fun _ _ => rfl, ?_, ?_, ?_, fun s2 => rfl⟩
      · intro _ hge
        simp only at hge
        omega
      · intro hf; simp at hf
      · intro hf; simp at hf

/-- Witness for `rgb_apply_brightness_fade_spec` at step size 10 from the
reset state. -/
theorem rgb_apply_brightness_fade_spec_witness :
    (10 ≤ 32513 ∧ BrightnessFadeInv ⟨true, 0⟩) ∧
    BrightnessFadeInv (brightness_fade_step 10 ⟨true, 0⟩).1 :=
  ⟨⟨by omega, by exact ⟨by norm_num, by norm_num, fun _ => by norm_num⟩⟩,
   (rgb_apply_brightness_fade_spec 10 (by omega) ⟨true, 0⟩
     ⟨by norm_num, by norm_num, fun _ => by norm_num⟩).1⟩

end LEDStrip
